import Mathlib

/-!
Verification of the Shut The Box Monte Carlo analysis program (`stb.py`).

The program simulates the dice game Shut The Box on the digit board 1..9
with digital scoring: the score of a final position is the base-10 number
obtained by concatenating the remaining digits in ascending order.

This file gives a shallow embedding of the program's data model and
operations, and proves the specification claims about them.

Conventions of the embedding:
- a Python `set` of digits is a `Finset ℕ`; Python's `sorted(list(s))` is
  `ascList s`, an executable ascending enumeration proved equal to
  `Finset.sort (· ≤ ·) s`;
- the pseudo-random dice stream of `play` is an explicit argument
  `rolls : ℕ → ℕ` giving the sum of the two dice on each turn, and the
  hidden state of `random.choice` is an explicit argument `g : ℕ`;
- the Python `assert` in `choose_heur` (and list indexing that can raise)
  is modelled by an `Option` result, `none` meaning the program aborts;
- the `while` loop of `play` is run with fuel `9`; returning `some` proves
  in particular that nine turns always suffice;
- the real-valued histogram-bin formula `floor(20 * log10(score+1) / 9)`
  is modelled over `ℝ` with `Real.logb`.

The module `choices` imported by `stb.py` (providing the move generator
`choices` and the canonical ordering `canon_choices`) is not part of the
sources; those two definitions are modelled from the spec, as marked in
their doc comments.
-/

set_option maxRecDepth 8000

/-! ### Definitions -/

/-- Executable embedding of Python's `sorted(list(s))` for a set of
naturals: the elements of `s` listed in ascending order. -/
def ascList (s : Finset ℕ) : List ℕ :=
  (List.range (s.sup id + 1)).filter (fun x => decide (x ∈ s))

/-- Embedding of `calc_score` from `stb.py`: sort the current digits in
ascending order and do the running sum `t = t * 10 + d`. -/
def calc_score (cur : Finset ℕ) : ℕ :=
  (ascList cur).foldl (fun t d => t * 10 + d) 0

/-- Modelled from the spec: the move generator `moves`/`choices` of the
missing `choices` module. It enumerates every subset of `available`
(of size at least 1) whose elements sum to `target`, without duplicates
and in a deterministic order; an empty result signals that the game is
over. The enumeration runs over the sublists of the ascending listing of
`available`. -/
def choices (available : Finset ℕ) (target : ℕ) : List (Finset ℕ) :=
  (((ascList available).sublists.filter
    (fun s => decide (s ≠ [] ∧ s.sum = target))).map List.toFinset)

/-- A move as the sequence of its digits sorted in descending order (the
canonical form used by the tie-break of the greedy heuristic). -/
def descSeq (m : Finset ℕ) : List ℕ :=
  (ascList m).reverse

/-- Boolean lexicographic comparison on digit sequences: `lexGE a b` means
`a` is greater than or equal to `b` in the lexicographic order (element
order `<` on ℕ, a strict prefix being smaller than the longer sequence). -/
def lexGE : List ℕ → List ℕ → Bool
  | _, [] => true
  | [], _ :: _ => false
  | a :: as, b :: bs => if b < a then true else if a < b then false else lexGE as bs

/-- Modelled from the spec: `canon_choices` of the missing `choices`
module, as used by `choose_heur` with `reverse=True`. It puts the
candidate moves into canonical form (digits sorted descending) and sorts
these sequences lexicographically — descending (greatest first) when
`rev` is true, ascending otherwise. -/
def canon_choices (ms : List (Finset ℕ)) (rev : Bool) : List (List ℕ) :=
  if rev then (ms.map descSeq).insertionSort (fun a b => lexGE a b = true)
  else (ms.map descSeq).insertionSort (fun a b => lexGE b a = true)

/-- Embedding of `choose_heur` from `stb.py`: assert that some move exists
(`none` models the assertion failure), keep the moves of minimum
cardinality, put them in canonical descending order and return the first,
converted back to a set. -/
def choose_heur (cur : Finset ℕ) (moves : List (Finset ℕ)) : Option (Finset ℕ) :=
  match moves with
  | [] => none
  | m0 :: rest =>
    let minl := rest.foldl (fun a m => min a m.card) m0.card
    let shortmoves := (m0 :: rest).filter (fun m => decide (m.card = minl))
    let cmoves := canon_choices shortmoves true
    cmoves.head?.map List.toFinset

/-- Embedding of `choose_random` from `stb.py`: `random.choice(moves)`
picks the entry at an index drawn from the hidden random state, modelled
by the explicit argument `g`; `none` models the `IndexError` on an empty
list. -/
def choose_random (g : ℕ) (cur : Finset ℕ) (moves : List (Finset ℕ)) : Option (Finset ℕ) :=
  moves[g % moves.length]?

/-- Embedding of the `while` loop of `play` from `stb.py`, with the dice
stream made explicit: at turn `i`, roll `rolls i`, stop when the board is
empty or no move exists, otherwise let the chooser pick and remove the
chosen digits. `fuel` bounds the number of turns; `none` means either the
chooser aborted or the fuel ran out with the game unfinished. -/
def playAux (chooser : Finset ℕ → List (Finset ℕ) → Option (Finset ℕ))
    (rolls : ℕ → ℕ) : ℕ → ℕ → Finset ℕ → Option ℕ
  | 0, _, cur => if cur = ∅ then some (calc_score cur) else none
  | fuel + 1, i, cur =>
    if cur = ∅ then some (calc_score cur)
    else
      let ms := choices cur (rolls i)
      if ms = [] then some (calc_score cur)
      else
        match chooser cur ms with
        | none => none
        | some mv => playAux chooser rolls fuel (i + 1) (cur \ mv)

/-- Embedding of `play` from `stb.py`: start from the full board 1..9 and
run the turn loop; nine turns of fuel suffice because each turn that does
not end the game removes at least one digit. -/
def play (chooser : Finset ℕ → List (Finset ℕ) → Option (Finset ℕ))
    (rolls : ℕ → ℕ) : Option ℕ :=
  playAux chooser rolls 9 0 (Finset.Icc 1 9)

/-- Embedding of the histogram-bin computation of the driver loop:
`bin = floor(nbins * log10(score + 1) / 9)` with `nbins = 20`, modelled
over the reals. -/
noncomputable def binOf (score : ℕ) : ℤ :=
  ⌊(20 : ℝ) * Real.logb 10 ((score : ℝ) + 1) / 9⌋

/-- Embedding of `hist[bin] += 1` in the driver loop: increment the bin of
`score`; `none` models the `IndexError` raised when the bin index is
outside the 20-slot array (the reference code does not clamp it). -/
noncomputable def histUpdate (hist : List ℕ) (score : ℕ) : Option (List ℕ) :=
  if 0 ≤ binOf score ∧ (binOf score).toNat < hist.length then
    some (hist.set (binOf score).toNat (hist.getD (binOf score).toNat 0 + 1))
  else none

/-- The running statistics of the Monte Carlo driver loop in `stb.py`:
win count, minimum, maximum, total, and the 20-bin histogram. -/
structure Stats where
  wins : ℕ
  mins : ℕ
  maxs : ℕ
  tot : ℕ
  hist : List ℕ

/-- The initial statistics of the driver: `wins = 0`, `maxs = 0`,
`mins = 123456789` (the code notes the minimum can never exceed this),
`tot = 0`, and 20 zeroed histogram bins. -/
def initStats : Stats :=
  ⟨0, 123456789, 0, 0, List.replicate 20 0⟩

/-- Embedding of one iteration of the driver loop of `stb.py`: update
wins, min, max and total with the score of one game and increment its
histogram bin (propagating the possible indexing failure). -/
noncomputable def recordGame (st : Stats) (score : ℕ) : Option Stats :=
  match histUpdate st.hist score with
  | none => none
  | some h =>
    some ⟨if score = 0 then st.wins + 1 else st.wins,
          min st.mins score, max st.maxs score, st.tot + score, h⟩

/-- The driver loop of `stb.py` run over a list of game scores. -/
noncomputable def runAux : List ℕ → Stats → Option Stats
  | [], st => some st
  | sc :: rest, st =>
    match recordGame st sc with
    | none => none
    | some st2 => runAux rest st2

/-- Embedding of the Monte Carlo driver loop of `stb.py`: fold the
per-game statistics update over the scores of the played games, starting
from the initial statistics. -/
noncomputable def runGames (scores : List ℕ) : Option Stats :=
  runAux scores initStats

/-! ### Basic properties of `ascList` and `calc_score` -/

lemma mem_ascList {s : Finset ℕ} {x : ℕ} : x ∈ ascList s ↔ x ∈ s := by
  constructor
  · intro hx
    have := List.mem_filter.mp hx
    exact of_decide_eq_true this.2
  · intro hx
    refine List.mem_filter.mpr ⟨List.mem_range.mpr ?_, decide_eq_true hx⟩
    exact Nat.lt_succ_of_le (Finset.le_sup (f := id) hx)

lemma ascList_sorted_lt (s : Finset ℕ) : (ascList s).Sorted (· < ·) :=
  List.Pairwise.filter _ (List.pairwise_lt_range _)

lemma ascList_sorted_le (s : Finset ℕ) : (ascList s).Sorted (· ≤ ·) :=
  (ascList_sorted_lt s).imp le_of_lt

lemma ascList_nodup (s : Finset ℕ) : (ascList s).Nodup :=
  (ascList_sorted_lt s).imp ne_of_lt

lemma ascList_toFinset (s : Finset ℕ) : (ascList s).toFinset = s := by
  ext x
  rw [List.mem_toFinset, mem_ascList]

/-- The executable ascending enumeration agrees with Mathlib's
`Finset.sort`. -/
lemma ascList_eq_sort (s : Finset ℕ) : ascList s = Finset.sort (· ≤ ·) s := by
  refine List.eq_of_perm_of_sorted ?_ (ascList_sorted_le s) (Finset.sort_sorted _ s)
  refine List.perm_of_nodup_nodup_toFinset_eq (ascList_nodup s) (Finset.sort_nodup _ s) ?_
  rw [ascList_toFinset, Finset.sort_toFinset]

lemma ascList_eq_nil_iff {s : Finset ℕ} : ascList s = [] ↔ s = ∅ := by
  constructor
  · intro h
    ext x
    simp only [Finset.not_mem_empty, iff_false]
    intro hx
    exact absurd (mem_ascList.mpr hx) (by simp [h])
  · intro h
    subst h
    rfl

/-- The running sum `t = t * 10 + d` over a digit list computes the base-10
positional value of the list read most-significant-first, on top of the
initial accumulator shifted past the whole list. -/
lemma foldl_base10 (l : List ℕ) : ∀ a : ℕ,
    l.foldl (fun t d => t * 10 + d) a = a * 10 ^ l.length + Nat.ofDigits 10 l.reverse := by
  induction l with
  | nil => intro a; simp
  | cons d t ih =>
    intro a
    rw [List.foldl_cons, ih (a * 10 + d), List.reverse_cons, Nat.ofDigits_append]
    simp only [List.length_cons, List.length_reverse, Nat.ofDigits_singleton]
    ring

/-- `calc_score` equals the base-10 value of the ascending sorted digit
list read most-significant-first (little-endian digit list is the
descending order, i.e. the reverse of the ascending sort). -/
lemma calc_score_eq_ofDigits (cur : Finset ℕ) :
    calc_score cur = Nat.ofDigits 10 ((Finset.sort (· ≤ ·) cur).reverse) := by
  rw [calc_score, foldl_base10, ascList_eq_sort]
  simp

/-! ### Properties of the move generator -/

/-- A sorted list of naturals whose elements all occur in another sorted
list is a sublist of it. -/
lemma sublist_of_sorted_subset : ∀ (l₂ l₁ : List ℕ), l₁.Sorted (· < ·) →
    l₂.Sorted (· < ·) → (∀ x, x ∈ l₁ → x ∈ l₂) → l₁.Sublist l₂ := by
  intro l₂
  induction l₂ with
  | nil =>
    intro l₁ _ _ hsub
    cases l₁ with
    | nil => exact List.Sublist.refl []
    | cons a t₁ => exact absurd (hsub a (List.mem_cons_self a t₁)) (List.not_mem_nil a)
  | cons b t₂ ih =>
    intro l₁ h₁ h₂ hsub
    cases l₁ with
    | nil => exact List.nil_sublist _
    | cons a t₁ =>
      by_cases hab : a = b
      · subst hab
        refine List.Sublist.cons₂ a (ih t₁ h₁.of_cons h₂.of_cons ?_)
        intro x hx
        rcases List.mem_cons.mp (hsub x (List.mem_cons_of_mem a hx)) with hxb | hxt
        · have hax : a < x := List.rel_of_sorted_cons h₁ x hx
          omega
        · exact hxt
      · refine List.Sublist.cons b (ih (a :: t₁) h₁ h₂.of_cons ?_)
        intro x hx
        rcases List.mem_cons.mp (hsub x hx) with hxb | hxt
        · exfalso
          rcases List.mem_cons.mp hx with hxa | hxt1
          · exact hab (hxa ▸ hxb)
          · have hax : a < x := List.rel_of_sorted_cons h₁ x hxt1
            rcases List.mem_cons.mp (hsub a (List.mem_cons_self a t₁)) with hab2 | hat2
            · exact hab hab2
            · have hba : b < a := List.rel_of_sorted_cons h₂ a hat2
              omega
        · exact hxt

/-- The sum of the elements of a set equals the sum of its ascending
listing. -/
lemma sum_ascList (S : Finset ℕ) : (ascList S).sum = S.sum id := by
  have h := List.sum_toFinset id (ascList_nodup S)
  rw [ascList_toFinset] at h
  rw [h, List.map_id]

/-- Membership characterization of the move generator: the returned moves
are exactly the non-empty subsets of `available` summing to `target`. -/
lemma mem_choices {A : Finset ℕ} {t : ℕ} {S : Finset ℕ} :
    S ∈ choices A t ↔ S ≠ ∅ ∧ S ⊆ A ∧ S.sum id = t := by
  unfold choices
  rw [List.mem_map]
  constructor
  · rintro ⟨l, hl, rfl⟩
    rw [List.mem_filter] at hl
    obtain ⟨hmem, hp⟩ := hl
    rw [List.mem_sublists] at hmem
    obtain ⟨hne, hsum⟩ := of_decide_eq_true hp
    have hnodup : l.Nodup := hmem.nodup (ascList_nodup A)
    refine ⟨?_, ?_, ?_⟩
    · rw [Ne, List.toFinset_eq_empty_iff]
      exact hne
    · intro x hx
      rw [List.mem_toFinset] at hx
      exact mem_ascList.mp (hmem.subset hx)
    · rw [List.sum_toFinset id hnodup, List.map_id]
      exact hsum
  · rintro ⟨hne, hsubA, hsum⟩
    refine ⟨ascList S, ?_, ascList_toFinset S⟩
    rw [List.mem_filter, List.mem_sublists]
    refine ⟨sublist_of_sorted_subset _ _ (ascList_sorted_lt S) (ascList_sorted_lt A) ?_, ?_⟩
    · intro x hx
      exact mem_ascList.mpr (hsubA (mem_ascList.mp hx))
    · apply decide_eq_true
      refine ⟨?_, ?_⟩
      · rw [Ne, ascList_eq_nil_iff]
        exact hne
      · rw [sum_ascList]
        exact hsum

/-- The move generator never returns the same subset twice. -/
lemma choices_nodup (A : Finset ℕ) (t : ℕ) : (choices A t).Nodup := by
  unfold choices
  apply List.Nodup.map_on
  · intro l₁ h₁ l₂ h₂ heq
    rw [List.mem_filter, List.mem_sublists] at h₁ h₂
    have hs₁ : l₁.Sorted (· < ·) := List.Pairwise.sublist h₁.1 (ascList_sorted_lt A)
    have hs₂ : l₂.Sorted (· < ·) := List.Pairwise.sublist h₂.1 (ascList_sorted_lt A)
    have h12 : l₁.Sublist l₂ := by
      refine sublist_of_sorted_subset l₂ l₁ hs₁ hs₂ ?_
      intro x hx
      rw [← List.mem_toFinset, heq, List.mem_toFinset] at hx
      exact hx
    have h21 : l₂.Sublist l₁ := by
      refine sublist_of_sorted_subset l₁ l₂ hs₂ hs₁ ?_
      intro x hx
      rw [← List.mem_toFinset, ← heq, List.mem_toFinset] at hx
      exact hx
    exact h12.antisymm h21
  · exact (List.nodup_sublists.mpr (ascList_nodup A)).filter _

/-! ### Digital-score arithmetic -/

/-- The running sum of `calc_score` never goes below its accumulator. -/
lemma le_foldl_base10 (l : List ℕ) : ∀ a : ℕ, a ≤ l.foldl (fun t d => t * 10 + d) a := by
  induction l with
  | nil => intro a; exact le_refl a
  | cons d t ih =>
    intro a
    rw [List.foldl_cons]
    calc a ≤ a * 10 + d := by omega
    _ ≤ _ := ih (a * 10 + d)

/-- A non-empty board of digits from 1..9 has a positive digital score. -/
lemma calc_score_pos {A : Finset ℕ} (hA : A ⊆ Finset.Icc 1 9) (hne : A ≠ ∅) :
    0 < calc_score A := by
  cases h : ascList A with
  | nil => exact absurd (ascList_eq_nil_iff.mp h) hne
  | cons d t =>
    have hd : d ∈ A := mem_ascList.mp (by rw [h]; exact List.mem_cons_self d t)
    have hd9 := Finset.mem_Icc.mp (hA hd)
    rw [calc_score, h, List.foldl_cons]
    have := le_foldl_base10 t (0 * 10 + d)
    omega

/-- The digital score is zero exactly on the empty board. -/
lemma calc_score_eq_zero_iff {A : Finset ℕ} (hA : A ⊆ Finset.Icc 1 9) :
    calc_score A = 0 ↔ A = ∅ := by
  constructor
  · intro h
    by_contra hne
    have := calc_score_pos hA hne
    omega
  · rintro rfl
    rfl

/-- The base-10 digit expansion of a non-empty board's score recovers the
descending digit list, hence the board. -/
lemma digits_calc_score {A : Finset ℕ} (hA : A ⊆ Finset.Icc 1 9) (hne : A ≠ ∅) :
    Nat.digits 10 (calc_score A) = (ascList A).reverse := by
  rw [calc_score, foldl_base10, zero_mul, zero_add]
  refine Nat.digits_ofDigits 10 (by norm_num) _ ?_ ?_
  · intro d hd
    have hd2 := Finset.mem_Icc.mp (hA (mem_ascList.mp (List.mem_reverse.mp hd)))
    omega
  · intro hne2
    have hmem := List.getLast_mem hne2
    have hd2 := Finset.mem_Icc.mp (hA (mem_ascList.mp (List.mem_reverse.mp hmem)))
    omega

/-- `calc_score` is injective on boards of digits 1..9. -/
lemma calc_score_inj {A B : Finset ℕ} (hA : A ⊆ Finset.Icc 1 9)
    (hB : B ⊆ Finset.Icc 1 9) (h : calc_score A = calc_score B) : A = B := by
  by_cases hAe : A = ∅
  · subst hAe
    have : calc_score B = 0 := by rw [← h]; rfl
    exact ((calc_score_eq_zero_iff hB).mp this).symm
  · by_cases hBe : B = ∅
    · subst hBe
      have : calc_score A = 0 := by rw [h]; rfl
      exact (calc_score_eq_zero_iff hA).mp this
    · have hdig : (ascList A).reverse = (ascList B).reverse := by
        rw [← digits_calc_score hA hAe, ← digits_calc_score hB hBe, h]
      have hasc : ascList A = ascList B := List.reverse_injective hdig
      rw [← ascList_toFinset A, ← ascList_toFinset B, hasc]

/-- Dropping digits from a base-10 number (as a most-significant-first
digit list) can only decrease its value. -/
lemma ofDigits_reverse_le_of_sublist {l₁ l₂ : List ℕ} (h : l₁.Sublist l₂) :
    Nat.ofDigits 10 l₁.reverse ≤ Nat.ofDigits 10 l₂.reverse := by
  induction h with
  | slnil => exact le_refl _
  | cons a h ih =>
    rw [List.reverse_cons, Nat.ofDigits_append]
    exact le_trans ih (Nat.le_add_right _ _)
  | cons₂ a h ih =>
    rw [List.reverse_cons, List.reverse_cons, Nat.ofDigits_append, Nat.ofDigits_append,
      Nat.ofDigits_singleton, List.length_reverse, List.length_reverse]
    exact Nat.add_le_add ih
      (Nat.mul_le_mul_right a (Nat.pow_le_pow_right (by norm_num) h.length_le))

/-- The digital score of any board of digits 1..9 is at most the score of
the full board, 123456789. -/
lemma calc_score_le {A : Finset ℕ} (hA : A ⊆ Finset.Icc 1 9) :
    calc_score A ≤ 123456789 := by
  have hsub : (ascList A).Sublist (ascList (Finset.Icc 1 9)) := by
    refine sublist_of_sorted_subset _ _ (ascList_sorted_lt A) (ascList_sorted_lt _) ?_
    intro x hx
    exact mem_ascList.mpr (hA (mem_ascList.mp hx))
  have h1 : calc_score A = Nat.ofDigits 10 (ascList A).reverse := by
    rw [calc_score, foldl_base10, zero_mul, zero_add]
  have h3 : (123456789 : ℕ) = Nat.ofDigits 10 (ascList (Finset.Icc 1 9)).reverse := by decide
  rw [h1, h3]
  exact ofDigits_reverse_le_of_sublist hsub

/-! ### The lexicographic comparison and the greedy heuristic -/

/-- `lexGE a b` holds exactly when `b` equals `a` or `b` is smaller than
`a` in Mathlib's lexicographic order on digit sequences. -/
lemma lexGE_iff : ∀ a b : List ℕ, lexGE a b = true ↔ (b = a ∨ List.Lex (· < ·) b a) := by
  intro a
  induction a with
  | nil =>
    intro b
    cases b with
    | nil => simp [lexGE]
    | cons y ys =>
      constructor
      · intro h
        exact absurd h (by simp [lexGE])
      · rintro (h | h)
        · exact absurd h (by simp)
        · exact absurd h (List.Lex.not_nil_right _ _)
  | cons x xs ih =>
    intro b
    cases b with
    | nil =>
      simp only [lexGE]
      constructor
      · intro _
        right
        exact List.Lex.nil
      · intro _
        trivial
    | cons y ys =>
      simp only [lexGE]
      constructor
      · intro h
        by_cases hyx : y < x
        · right
          exact List.Lex.rel hyx
        · by_cases hxy : x < y
          · rw [if_neg hyx, if_pos hxy] at h
            exact absurd h (by simp)
          · have hxy2 : x = y := by omega
            subst hxy2
            rw [if_neg hyx, if_neg hxy] at h
            rcases (ih ys).mp h with h2 | h2
            · left
              rw [h2]
            · right
              exact List.Lex.cons h2
      · rintro (h | h)
        · have h1 : y = x := (List.cons.injEq y ys x xs).mp h |>.1
          have h2 : ys = xs := (List.cons.injEq y ys x xs).mp h |>.2
          subst h1
          subst h2
          rw [if_neg (lt_irrefl y), if_neg (lt_irrefl y)]
          exact (ih ys).mpr (Or.inl rfl)
        · cases h with
          | rel hr => rw [if_pos hr]
          | cons h3 =>
            rw [if_neg (lt_irrefl x), if_neg (lt_irrefl x)]
            exact (ih ys).mpr (Or.inr h3)

/-- Totality of the boolean lexicographic comparison. -/
lemma lexGE_total (a b : List ℕ) : lexGE a b = true ∨ lexGE b a = true := by
  haveI : IsTrichotomous ℕ (· < ·) := ⟨fun x y => Nat.lt_trichotomy x y⟩
  rcases trichotomous_of (List.Lex (· < ·)) a b with h | h | h
  · right
    rw [lexGE_iff]
    exact Or.inr h
  · left
    rw [lexGE_iff]
    exact Or.inl h.symm
  · left
    rw [lexGE_iff]
    exact Or.inr h

/-- Transitivity of the boolean lexicographic comparison. -/
lemma lexGE_trans (a b c : List ℕ) (h1 : lexGE a b = true) (h2 : lexGE b c = true) :
    lexGE a c = true := by
  rw [lexGE_iff] at h1 h2 ⊢
  rcases h1 with h1e | h1l
  · exact h1e ▸ h2
  · rcases h2 with h2e | h2l
    · right
      exact h2e ▸ h1l
    · right
      exact trans_of (List.Lex (· < ·)) h2l h1l

/-- The running minimum of the move sizes is a lower bound. -/
lemma foldlMin_le (l : List (Finset ℕ)) : ∀ a : ℕ,
    l.foldl (fun x m => min x m.card) a ≤ a ∧
    ∀ m ∈ l, l.foldl (fun x m => min x m.card) a ≤ m.card := by
  induction l with
  | nil =>
    intro a
    exact ⟨le_refl a, by simp⟩
  | cons c t ih =>
    intro a
    rw [List.foldl_cons]
    obtain ⟨h1, h2⟩ := ih (min a c.card)
    refine ⟨le_trans h1 (min_le_left _ _), ?_⟩
    intro m hm
    rcases List.mem_cons.mp hm with rfl | hm2
    · exact le_trans h1 (min_le_right _ _)
    · exact h2 m hm2

/-- The running minimum of the move sizes is attained. -/
lemma foldlMin_mem (l : List (Finset ℕ)) : ∀ a : ℕ,
    l.foldl (fun x m => min x m.card) a = a ∨
    ∃ m ∈ l, l.foldl (fun x m => min x m.card) a = m.card := by
  induction l with
  | nil =>
    intro a
    exact Or.inl rfl
  | cons c t ih =>
    intro a
    rw [List.foldl_cons]
    rcases ih (min a c.card) with h | ⟨m, hm, he⟩
    · rcases min_cases a c.card with ⟨he2, -⟩ | ⟨he2, -⟩
      · left
        rw [h, he2]
      · right
        exact ⟨c, List.mem_cons_self c t, by rw [h, he2]⟩
    · right
      exact ⟨m, List.mem_cons_of_mem c hm, he⟩

/-- The canonical descending sequence of a move recovers the move. -/
lemma descSeq_toFinset (m : Finset ℕ) : (descSeq m).toFinset = m := by
  rw [descSeq, List.toFinset_reverse, ascList_toFinset]

/-- Characterization of the greedy heuristic on a non-empty move list: it
returns a move of minimum cardinality whose descending digit sequence is
lexicographically greatest among the size-minimal moves. -/
lemma choose_heur_spec (cur : Finset ℕ) (moves : List (Finset ℕ)) (hne : moves ≠ []) :
    ∃ m, choose_heur cur moves = some m ∧ m ∈ moves ∧
      (∀ m2 ∈ moves, m.card ≤ m2.card) ∧
      (∀ m2 ∈ moves, m2.card = m.card →
        descSeq m2 = descSeq m ∨ List.Lex (· < ·) (descSeq m2) (descSeq m)) := by
  cases moves with
  | nil => exact absurd rfl hne
  | cons m0 rest =>
    set minl := rest.foldl (fun a m => min a m.card) m0.card with hminl
    set shortmoves := (m0 :: rest).filter (fun m => decide (m.card = minl)) with hshort
    obtain ⟨hle0, hlerest⟩ := foldlMin_le rest m0.card
    have hminle : ∀ m2 ∈ m0 :: rest, minl ≤ m2.card := by
      intro m2 hm2
      rcases List.mem_cons.mp hm2 with rfl | h
      · exact hle0
      · exact hlerest m2 h
    have hachieved : ∃ m2 ∈ m0 :: rest, m2.card = minl := by
      rcases foldlMin_mem rest m0.card with h | ⟨m2, hm2, he⟩
      · exact ⟨m0, List.mem_cons_self m0 rest, h.symm⟩
      · exact ⟨m2, List.mem_cons_of_mem m0 hm2, he.symm⟩
    have hshort_ne : shortmoves ≠ [] := by
      obtain ⟨m2, hm2, he⟩ := hachieved
      intro hemp
      have hmem : m2 ∈ shortmoves := List.mem_filter.mpr ⟨hm2, decide_eq_true he⟩
      rw [hemp] at hmem
      exact List.not_mem_nil m2 hmem
    haveI instTot : IsTotal (List ℕ) (fun a b => lexGE a b = true) := ⟨lexGE_total⟩
    haveI instTrans : IsTrans (List ℕ) (fun a b => lexGE a b = true) := ⟨lexGE_trans⟩
    have hperm : (canon_choices shortmoves true).Perm (shortmoves.map descSeq) := by
      rw [canon_choices, if_pos rfl]
      exact List.perm_insertionSort _ _
    have hsorted : (canon_choices shortmoves true).Sorted (fun a b => lexGE a b = true) := by
      rw [canon_choices, if_pos rfl]
      exact List.sorted_insertionSort _ _
    have hcne : canon_choices shortmoves true ≠ [] := by
      intro h
      have hlen := hperm.length_eq
      rw [h] at hlen
      cases hs : shortmoves with
      | nil => exact hshort_ne hs
      | cons a t =>
        rw [hs] at hlen
        simp at hlen
    cases hc : canon_choices shortmoves true with
    | nil => exact absurd hc hcne
    | cons h0 t =>
      have hh0mem : h0 ∈ shortmoves.map descSeq :=
        hperm.mem_iff.mp (by rw [hc]; exact List.mem_cons_self h0 t)
      obtain ⟨m, hmshort, hmdesc⟩ := List.mem_map.mp hh0mem
      have hmmoves : m ∈ m0 :: rest := (List.mem_filter.mp hmshort).1
      have hmcard : m.card = minl := of_decide_eq_true (List.mem_filter.mp hmshort).2
      refine ⟨m, ?_, hmmoves, ?_, ?_⟩
      · show (canon_choices shortmoves true).head?.map List.toFinset = some m
        rw [hc]
        simp only [List.head?_cons, Option.map_some']
        rw [← hmdesc, descSeq_toFinset]
      · intro m2 hm2
        rw [hmcard]
        exact hminle m2 hm2
      · intro m2 hm2 hcard2
        have hm2short : m2 ∈ shortmoves :=
          List.mem_filter.mpr ⟨hm2, decide_eq_true (by rw [hcard2, hmcard])⟩
        have hmem2 : descSeq m2 ∈ canon_choices shortmoves true :=
          hperm.mem_iff.mpr (List.mem_map_of_mem descSeq hm2short)
        rw [hc] at hmem2
        rcases List.mem_cons.mp hmem2 with he | ht
        · left
          rw [hmdesc]
          exact he
        · have hsorted2 : List.Sorted (fun a b => lexGE a b = true) (h0 :: t) :=
            hc ▸ hsorted
          have hrel : lexGE h0 (descSeq m2) = true :=
            List.rel_of_sorted_cons hsorted2 (descSeq m2) ht
          rw [lexGE_iff] at hrel
          rcases hrel with he2 | hl2
          · left
            rw [hmdesc]
            exact he2
          · right
            rw [hmdesc]
            exact hl2

/-! ### The game loop -/

/-- As long as the fuel bounds the number of remaining digits, the game
loop run with any chooser that picks one of the offered moves ends with
`some` score, and the score is the digital score of a sub-board of the
starting board (the digits never removed). -/
lemma playAux_some (chooser : Finset ℕ → List (Finset ℕ) → Option (Finset ℕ))
    (hch : ∀ cur ms, ms ≠ [] → ∃ m, chooser cur ms = some m ∧ m ∈ ms)
    (rolls : ℕ → ℕ) :
    ∀ (fuel i : ℕ) (cur : Finset ℕ), cur.card ≤ fuel →
      ∃ D, D ⊆ cur ∧ playAux chooser rolls fuel i cur = some (calc_score D) := by
  intro fuel
  induction fuel with
  | zero =>
    intro i cur hcard
    have hcur : cur = ∅ := Finset.card_eq_zero.mp (Nat.le_zero.mp hcard)
    subst hcur
    exact ⟨∅, Finset.Subset.refl ∅, by rw [playAux, if_pos rfl]⟩
  | succ fuel ih =>
    intro i cur hcard
    by_cases hcur : cur = ∅
    · subst hcur
      exact ⟨∅, Finset.Subset.refl ∅, by rw [playAux, if_pos rfl]⟩
    · by_cases hms : choices cur (rolls i) = []
      · refine ⟨cur, Finset.Subset.refl cur, ?_⟩
        rw [playAux, if_neg hcur]
        simp [hms]
      · obtain ⟨mv, hmv_eq, hmv_mem⟩ := hch cur _ hms
        obtain ⟨hmv_ne, hmv_sub, -⟩ := mem_choices.mp hmv_mem
        have hssub : cur \ mv ⊂ cur :=
          Finset.sdiff_ssubset hmv_sub (Finset.nonempty_iff_ne_empty.mpr hmv_ne)
        have hcard2 : (cur \ mv).card ≤ fuel := by
          have := Finset.card_lt_card hssub
          omega
        obtain ⟨D, hD, hplay⟩ := ih (i + 1) (cur \ mv) hcard2
        refine ⟨D, subset_trans hD Finset.sdiff_subset, ?_⟩
        rw [playAux, if_neg hcur]
        simp [hms, hmv_eq, hplay]

/-! ### The histogram bin and the driver loop -/

/-- The base-10 logarithm of one more than the maximum attainable score is
at least 8 (since `10^8 ≤ 123456790`). -/
lemma le_logb_succ_max : (8 : ℝ) ≤ Real.logb 10 123456790 := by
  have hb : (1 : ℝ) < 10 := by norm_num
  have h := Real.logb_le_logb_of_le hb
    (show (0 : ℝ) < 10 ^ (8 : ℕ) by positivity)
    (show ((10 : ℝ)) ^ (8 : ℕ) ≤ 123456790 by norm_num)
  rwa [Real.logb_pow, Real.logb_self_eq_one hb, mul_one] at h

/-- The base-10 logarithm of one more than the maximum attainable score is
less than 8.1 (since `123456790 ^ 10 < 10 ^ 81`). -/
lemma logb_succ_max_lt : Real.logb 10 123456790 < 8.1 := by
  have hb : (1 : ℝ) < 10 := by norm_num
  have hpow : ((123456790 : ℝ)) ^ (10 : ℕ) < (10 : ℝ) ^ (81 : ℕ) := by norm_num
  have h := Real.logb_lt_logb hb (show (0 : ℝ) < 123456790 ^ (10 : ℕ) by positivity) hpow
  rw [Real.logb_pow, Real.logb_pow, Real.logb_self_eq_one hb, mul_one] at h
  norm_num at h ⊢
  linarith

/-- The histogram bin index is never negative. -/
lemma binOf_nonneg (s : ℕ) : 0 ≤ binOf s := by
  apply Int.floor_nonneg.mpr
  have hlog : 0 ≤ Real.logb 10 ((s : ℝ) + 1) := by
    apply Real.logb_nonneg (by norm_num)
    have : (0 : ℝ) ≤ (s : ℝ) := Nat.cast_nonneg s
    linarith
  exact div_nonneg (mul_nonneg (by norm_num) hlog) (by norm_num)

/-- For every attainable score, the histogram bin index is at most 17. -/
lemma binOf_le (s : ℕ) (hs : s ≤ 123456789) : binOf s ≤ 17 := by
  have hb : (1 : ℝ) < 10 := by norm_num
  have hsle : ((s : ℝ)) + 1 ≤ 123456790 := by
    have : (s : ℝ) ≤ 123456789 := by exact_mod_cast hs
    linarith
  have hlog : Real.logb 10 ((s : ℝ) + 1) ≤ Real.logb 10 123456790 :=
    Real.logb_le_logb_of_le hb (by positivity) hsle
  have hlt := logb_succ_max_lt
  have hr : (20 : ℝ) * Real.logb 10 ((s : ℝ) + 1) / 9 < 18 := by
    rw [div_lt_iff₀ (by norm_num : (0 : ℝ) < 9)]
    norm_num at hlt
    linarith
  have : binOf s < 18 := Int.floor_lt.mpr (by push_cast; linarith)
  omega

/-- The histogram bin of the maximum attainable score 123456789 is 17. -/
lemma binOf_max_score : binOf 123456789 = 17 := by
  have h8 := le_logb_succ_max
  have h81 := logb_succ_max_lt
  rw [binOf]
  have hc : ((123456789 : ℕ) : ℝ) + 1 = 123456790 := by norm_num
  rw [hc, Int.floor_eq_iff]
  norm_num at h81 ⊢
  constructor
  · linarith
  · linarith

/-- On a 20-slot histogram, recording an attainable score increments its
bin. -/
lemma histUpdate_spec {hist : List ℕ} {s : ℕ} (hs : s ≤ 123456789)
    (hlen : hist.length = 20) :
    histUpdate hist s =
      some (hist.set (binOf s).toNat (hist.getD (binOf s).toNat 0 + 1)) := by
  rw [histUpdate, if_pos]
  refine ⟨binOf_nonneg s, ?_⟩
  have h1 := binOf_le s hs
  have h2 := binOf_nonneg s
  rw [hlen]
  omega

/-- Incrementing an in-range cell increments the sum of a list by one. -/
lemma sum_set_getD_succ : ∀ (l : List ℕ) (i : ℕ), i < l.length →
    (l.set i (l.getD i 0 + 1)).sum = l.sum + 1 := by
  intro l
  induction l with
  | nil =>
    intro i h
    simp at h
  | cons a t ih =>
    intro i h
    cases i with
    | zero =>
      simp only [List.set_cons_zero, List.getD_cons_zero, List.sum_cons]
      omega
    | succ n =>
      have hn : n < t.length := by simpa using h
      simp only [List.set_cons_succ, List.getD_cons_succ, List.sum_cons]
      rw [ih n hn]
      omega

/-- Reading back the written cell of `List.set`. -/
lemma getD_set_self (l : List ℕ) (i v : ℕ) (h : i < l.length) :
    (l.set i v).getD i 0 = v := by
  rw [List.getD_eq_getElem?_getD, List.getElem?_set_self h]
  rfl

/-- Reading any other cell of `List.set`. -/
lemma getD_set_ne (l : List ℕ) (i j v : ℕ) (h : i ≠ j) :
    (l.set i v).getD j 0 = l.getD j 0 := by
  rw [List.getD_eq_getElem?_getD, List.getElem?_set_ne h, ← List.getD_eq_getElem?_getD]

/-- One driver iteration on an attainable score succeeds and performs the
updates of the loop body. -/
lemma recordGame_spec {st : Stats} {sc : ℕ} (hs : sc ≤ 123456789)
    (hlen : st.hist.length = 20) :
    recordGame st sc = some
      ⟨if sc = 0 then st.wins + 1 else st.wins, min st.mins sc, max st.maxs sc,
       st.tot + sc,
       st.hist.set (binOf sc).toNat (st.hist.getD (binOf sc).toNat 0 + 1)⟩ := by
  rw [recordGame, histUpdate_spec hs hlen]

/-- Invariants of the driver loop over any list of attainable scores: it
succeeds and tracks the histogram length, counts, total, minimum and
maximum as expected. -/
lemma runAux_spec : ∀ (scores : List ℕ) (st : Stats),
    (∀ sc ∈ scores, sc ≤ 123456789) → st.hist.length = 20 →
    ∃ st2, runAux scores st = some st2 ∧
      st2.hist.length = 20 ∧
      st2.hist.sum = st.hist.sum + scores.length ∧
      st2.wins ≤ st.wins + scores.length ∧
      st2.tot = st.tot + scores.sum ∧
      st2.mins ≤ st.mins ∧
      st.maxs ≤ st2.maxs ∧
      st2.maxs ≤ max st.maxs 123456789 ∧
      (∀ sc ∈ scores, st2.mins ≤ sc ∧ sc ≤ st2.maxs) := by
  intro scores
  induction scores with
  | nil =>
    intro st hsc hlen
    exact ⟨st, rfl, hlen, by simp, by simp, by simp, le_refl _, le_refl _,
      le_max_left _ _, by simp⟩
  | cons sc rest ih =>
    intro st hsc hlen
    have hsc0 : sc ≤ 123456789 := hsc sc (List.mem_cons_self sc rest)
    set st1 : Stats := ⟨if sc = 0 then st.wins + 1 else st.wins, min st.mins sc,
      max st.maxs sc, st.tot + sc,
      st.hist.set (binOf sc).toNat (st.hist.getD (binOf sc).toNat 0 + 1)⟩ with hst1
    have hrec : recordGame st sc = some st1 := recordGame_spec hsc0 hlen
    have hidx : (binOf sc).toNat < st.hist.length := by
      have h1 := binOf_le sc hsc0
      have h2 := binOf_nonneg sc
      rw [hlen]
      omega
    have hlen1 : st1.hist.length = 20 := by
      rw [hst1]
      simp only [List.length_set]
      exact hlen
    obtain ⟨st2, hrun, hl2, hsum2, hwins2, htot2, hmins2, hmaxs2a, hmaxs2b, hall2⟩ :=
      ih st1 (fun x hx => hsc x (List.mem_cons_of_mem sc hx)) hlen1
    have hsum1 : st1.hist.sum = st.hist.sum + 1 := by
      rw [hst1]
      exact sum_set_getD_succ st.hist _ hidx
    refine ⟨st2, ?_, hl2, ?_, ?_, ?_, ?_, ?_, ?_, ?_⟩
    · simp only [runAux, hrec]
      exact hrun
    · rw [hsum2, hsum1, List.length_cons]
      omega
    · have h1 : st1.wins ≤ st.wins + 1 := by
        rw [hst1]
        dsimp only
        split <;> omega
      rw [List.length_cons]
      omega
    · rw [htot2, List.sum_cons]
      have h1 : st1.tot = st.tot + sc := rfl
      omega
    · exact le_trans hmins2 (min_le_left _ _)
    · exact le_trans (le_max_left st.maxs sc) hmaxs2a
    · refine le_trans hmaxs2b ?_
      have h1 : st1.maxs = max st.maxs sc := rfl
      rw [h1]
      apply max_le
      · exact max_le (le_max_left _ _) (le_trans hsc0 (le_max_right _ _))
      · exact le_max_right _ _
    · intro x hx
      rcases List.mem_cons.mp hx with rfl | hx2
      · exact ⟨le_trans hmins2 (min_le_right _ _), le_trans (le_max_right _ _) hmaxs2a⟩
      · exact hall2 x hx2

/-! ### Claim theorems -/

/-- C1: For every set of digits, `calc_score` returns the integer formed by
sorting the digits in ascending order and concatenating them positionally
in base 10 (the positional value `Nat.ofDigits 10` of the descending,
i.e. reversed-ascending, digit list), not their sum; in particular
`calc_score {} = 0`, `calc_score {1,...,9} = 123456789`,
`calc_score {9} = 9` and `calc_score {1,9} = 19`. -/
theorem stb_C1_calc_score_positional :
    (∀ cur : Finset ℕ,
      calc_score cur = Nat.ofDigits 10 ((Finset.sort (· ≤ ·) cur).reverse)) ∧
    calc_score ∅ = 0 ∧
    calc_score {1, 2, 3, 4, 5, 6, 7, 8, 9} = 123456789 ∧
    calc_score {9} = 9 ∧
    calc_score {1, 9} = 19 :=
  ⟨calc_score_eq_ofDigits, by decide, by decide, by decide, by decide⟩

/-- C2 counterexample: the claim asserts both that `moves(D, r)` returns
every subset of `D` summing to `r` and that `moves({1..9}, 1) == []`;
these conflict, because the singleton subset `{1}` sums to 1. With the
spec-modelled generator, the result at roll 1 is `[{1}]`, not `[]`. -/
theorem stb_C2_counterexample : choices (Finset.Icc 1 9) 1 ≠ [] := by decide

/-- C2 (amended): for every digit set `D` and every roll `r ≥ 1`, the move
generator returns exactly the subsets of `D` whose elements sum to `r`
(soundness and completeness), with no duplicates; in particular
`moves({1..9}, 2) = [{2}]` and `moves({1..9}, 1) = [{1}]` (a roll of 1
cannot occur in play, where rolls are sums of two dice). -/
theorem stb_C2_moves_exactly_subsets :
    (∀ (D : Finset ℕ) (r : ℕ) (S : Finset ℕ), 1 ≤ r →
      (S ∈ choices D r ↔ S ⊆ D ∧ S.sum id = r)) ∧
    (∀ (D : Finset ℕ) (r : ℕ), (choices D r).Nodup) ∧
    choices (Finset.Icc 1 9) 2 = [{2}] ∧
    choices (Finset.Icc 1 9) 1 = [{1}] := by
  refine ⟨?_, fun D r => choices_nodup D r, by decide, by decide⟩
  intro D r S hr
  rw [mem_choices]
  constructor
  · rintro ⟨-, h1, h2⟩
    exact ⟨h1, h2⟩
  · rintro ⟨h1, h2⟩
    refine ⟨?_, h1, h2⟩
    rintro rfl
    rw [Finset.sum_empty] at h2
    omega

/-- Witness for C2 (amended) at a concrete input: `{2}` is a move for the
board `{1, 2}` and roll 2. -/
theorem stb_C2_moves_exactly_subsets_witness :
    ({2} : Finset ℕ) ∈ choices {1, 2} 2 :=
  (stb_C2_moves_exactly_subsets.1 {1, 2} 2 {2} (by norm_num)).mpr (by decide)

/-- C10: `calc_score` is injective on subsets of 1..9; every such score is
at most 123456789 (and at least 0, trivially in ℕ); and the score is zero
exactly for the empty board, so counting wins by `score == 0` counts
exactly the games that emptied the board. -/
theorem stb_C10_calc_score_injective :
    (∀ A B : Finset ℕ, A ⊆ Finset.Icc 1 9 → B ⊆ Finset.Icc 1 9 → A ≠ B →
      calc_score A ≠ calc_score B) ∧
    (∀ A : Finset ℕ, A ⊆ Finset.Icc 1 9 → calc_score A ≤ 123456789) ∧
    (∀ A : Finset ℕ, A ⊆ Finset.Icc 1 9 → (calc_score A = 0 ↔ A = ∅)) :=
  ⟨fun _ _ hA hB hne hc => hne (calc_score_inj hA hB hc),
   fun _ hA => calc_score_le hA,
   fun _ hA => calc_score_eq_zero_iff hA⟩

/-- Witness for C10 at concrete inputs: the distinct boards `{1}` and
`{2}` get distinct scores, and the score of `{1, 9}` is within bounds. -/
theorem stb_C10_calc_score_injective_witness :
    calc_score {1} ≠ calc_score {2} ∧ calc_score {1, 9} ≤ 123456789 :=
  ⟨stb_C10_calc_score_injective.1 {1} {2} (by decide) (by decide) (by decide),
   stb_C10_calc_score_injective.2.1 {1, 9} (by decide)⟩

/-- C3: For every non-empty list of moves, `choose_heur` returns a move of
the list that has minimum cardinality and whose digits, sorted in
descending order (`descSeq`) and compared lexicographically as sequences,
are greatest among the size-minimal moves; in particular it returns `{3}`
on `[{3}, {1, 2}]` and `{3, 6}` on `[{4, 5}, {3, 6}]`. -/
theorem stb_C3_choose_heur_minsize_then_lex_greatest :
    (∀ (cur : Finset ℕ) (moves : List (Finset ℕ)), moves ≠ [] →
      ∃ m, choose_heur cur moves = some m ∧ m ∈ moves ∧
        (∀ m2 ∈ moves, m.card ≤ m2.card) ∧
        (∀ m2 ∈ moves, m2.card = m.card →
          descSeq m2 = descSeq m ∨ List.Lex (· < ·) (descSeq m2) (descSeq m))) ∧
    choose_heur {1, 2, 3} [{3}, {1, 2}] = some {3} ∧
    choose_heur {3, 4, 5, 6} [{4, 5}, {3, 6}] = some {3, 6} := by
  refine ⟨choose_heur_spec, by decide, ?_⟩
  have h : choose_heur {3, 4, 5, 6} [{4, 5}, {3, 6}] = some (List.toFinset [6, 3]) := by rfl
  rw [h]
  congr 1
  ext a
  simp
  tauto

/-- Witness for C3 at a concrete input: the characterization applied to
the move list `[{3}, {1, 2}]`. -/
theorem stb_C3_choose_heur_minsize_then_lex_greatest_witness :
    ∃ m, choose_heur {1, 2, 3} ([{3}, {1, 2}] : List (Finset ℕ)) = some m ∧
      m ∈ ([{3}, {1, 2}] : List (Finset ℕ)) ∧
      (∀ m2 ∈ ([{3}, {1, 2}] : List (Finset ℕ)), m.card ≤ m2.card) ∧
      (∀ m2 ∈ ([{3}, {1, 2}] : List (Finset ℕ)), m2.card = m.card →
        descSeq m2 = descSeq m ∨ List.Lex (· < ·) (descSeq m2) (descSeq m)) :=
  stb_C3_choose_heur_minsize_then_lex_greatest.1 {1, 2, 3} [{3}, {1, 2}]
    (List.cons_ne_nil _ _)

/-- C5: In every execution of `play`, the chooser is invoked only after
the move generator returned a non-empty list (the loop breaks first
otherwise), so the assertion of `choose_heur` — modelled by the `none`
result — can never fire when `choose_heur` is called from `play`: a game
played with `choose_heur` always produces a score, whatever the dice
stream. -/
theorem stb_C5_play_never_triggers_assert :
    ∀ rolls : ℕ → ℕ, ∃ s, play choose_heur rolls = some s := by
  intro rolls
  have hch : ∀ cur ms, ms ≠ [] → ∃ m, choose_heur cur ms = some m ∧ m ∈ ms := by
    intro cur ms hne
    obtain ⟨m, h1, h2, -, -⟩ := choose_heur_spec cur ms hne
    exact ⟨m, h1, h2⟩
  obtain ⟨D, -, hp⟩ := playAux_some choose_heur hch rolls 9 0 (Finset.Icc 1 9) (by decide)
  exact ⟨calc_score D, hp⟩

/-- C6: Whenever the chooser always picks one of the offered moves (the
offered moves are non-empty subsets of the current board by construction
of the move generator), `play` terminates — nine turns of fuel suffice —
and its score is the digital score of the set of digits never removed,
a subset of 1..9, concatenated in ascending order by `calc_score`. -/
theorem stb_C6_play_terminates_within_nine_turns :
    ∀ (chooser : Finset ℕ → List (Finset ℕ) → Option (Finset ℕ)) (rolls : ℕ → ℕ),
      (∀ cur ms, ms ≠ [] → ∃ m, chooser cur ms = some m ∧ m ∈ ms) →
      ∃ D, D ⊆ Finset.Icc 1 9 ∧ play chooser rolls = some (calc_score D) := by
  intro chooser rolls hch
  obtain ⟨D, hD, hp⟩ := playAux_some chooser hch rolls 9 0 (Finset.Icc 1 9) (by decide)
  exact ⟨D, hD, hp⟩

/-- Witness for C6 at a concrete input: the head-picking chooser and the
constant dice stream rolling 2 every turn. -/
theorem stb_C6_play_terminates_within_nine_turns_witness :
    ∃ D, D ⊆ Finset.Icc 1 9 ∧
      play (fun _ ms => ms.head?) (fun _ => 2) = some (calc_score D) := by
  apply stb_C6_play_terminates_within_nine_turns
  intro cur ms hne
  cases ms with
  | nil => exact absurd rfl hne
  | cons a t => exact ⟨a, rfl, List.mem_cons_self a t⟩

/-- C8: `choose_heur` invoked with an empty moves list fails its
assertion — modelled by returning `none` — rather than returning a
value. -/
theorem stb_C8_choose_heur_asserts_on_empty :
    ∀ cur : Finset ℕ, choose_heur cur [] = none :=
  fun _ => rfl

/-- C9 counterexample: `choose_random` is not a pure function of the pair
(digit set, moves): with the same arguments but two different states of
the hidden random source it returns two different moves. -/
theorem stb_C9_counterexample :
    choose_random 0 ∅ [{1}, {2}] ≠ choose_random 1 ∅ [{1}, {2}] := by decide

/-- C9 (amended): each policy is a pure function of its modelled inputs:
`choose_heur` depends only on its arguments (not even on the digit set),
and `choose_random` is a pure function of the random state together with
the moves — same state and moves give the same choice, which is always an
element of the list — but not of (digit set, moves) alone. -/
theorem stb_C9_policies_pure_in_modelled_inputs :
    (∀ (g : ℕ) (cur cur2 : Finset ℕ) (ms : List (Finset ℕ)),
      choose_random g cur ms = choose_random g cur2 ms) ∧
    (∀ (cur cur2 : Finset ℕ) (ms : List (Finset ℕ)),
      choose_heur cur ms = choose_heur cur2 ms) ∧
    (∀ (g : ℕ) (cur : Finset ℕ) (ms : List (Finset ℕ)), ms ≠ [] →
      ∃ m, choose_random g cur ms = some m ∧ m ∈ ms) := by
  refine ⟨fun _ _ _ _ => rfl, fun _ _ _ => rfl, ?_⟩
  intro g cur ms hne
  have hlt : g % ms.length < ms.length := Nat.mod_lt g (List.length_pos.mpr hne)
  refine ⟨ms.get ⟨g % ms.length, hlt⟩, ?_, List.get_mem ms _ _⟩
  show ms[g % ms.length]? = _
  rw [List.getElem?_eq_getElem hlt]
  rfl

/-- Witness for C9 (amended) at a concrete input: `choose_random` with
state 0 on the singleton move list returns a member of the list. -/
theorem stb_C9_policies_pure_in_modelled_inputs_witness :
    ∃ m, choose_random 0 ∅ ([{1}] : List (Finset ℕ)) = some m ∧
      m ∈ ([{1}] : List (Finset ℕ)) :=
  stb_C9_policies_pure_in_modelled_inputs.2.2 0 ∅ [{1}] (List.cons_ne_nil _ _)

/-- C4 counterexample: the histogram bin index of the maximum attainable
score 123456789 is 17, not 20 — `log10(123456790) ≈ 8.09`, so
`floor(20 * log10(score+1) / 9)` stays well inside the 20-slot array; the
claimed out-of-bounds index at the maximum score does not occur. -/
theorem stb_C4_counterexample : binOf 123456789 = 17 ∧ binOf 123456789 ≠ 20 :=
  ⟨binOf_max_score, by rw [binOf_max_score]; decide⟩

/-- C4 (amended): the bin index `floor(20 * log10(score+1) / 9)` of the
maximum attainable score 123456789 is 17, inside the bounds of the
20-slot histogram; the driver indeed does not clamp, but for every
attainable score the bin index lies in 0..19, and the driver increments
exactly that bin. -/
theorem stb_C4_histogram_bin_in_range :
    binOf 123456789 = 17 ∧
    (∀ s : ℕ, s ≤ 123456789 → 0 ≤ binOf s ∧ binOf s < 20) ∧
    (∀ (hist : List ℕ) (s : ℕ), s ≤ 123456789 → hist.length = 20 →
      ∃ h2, histUpdate hist s = some h2 ∧
        h2.getD (binOf s).toNat 0 = hist.getD (binOf s).toNat 0 + 1 ∧
        ∀ j, j ≠ (binOf s).toNat → h2.getD j 0 = hist.getD j 0) := by
  refine ⟨binOf_max_score, ?_, ?_⟩
  · intro s hs
    have h1 := binOf_nonneg s
    have h2 := binOf_le s hs
    exact ⟨h1, by omega⟩
  · intro hist s hs hlen
    have hidx : (binOf s).toNat < hist.length := by
      have h1 := binOf_nonneg s
      have h2 := binOf_le s hs
      rw [hlen]
      omega
    refine ⟨hist.set (binOf s).toNat (hist.getD (binOf s).toNat 0 + 1),
      histUpdate_spec hs hlen, getD_set_self hist _ _ hidx, ?_⟩
    intro j hj
    exact getD_set_ne hist _ j _ (fun he => hj he.symm)

/-- Witness for C4 (amended) at a concrete input: the bin of score 0 is in
range. -/
theorem stb_C4_histogram_bin_in_range_witness : 0 ≤ binOf 0 ∧ binOf 0 < 20 :=
  stb_C4_histogram_bin_in_range.2.1 0 (by norm_num)

/-- C7: After the driver records the scores of `num_games ≥ 1` games, the
statistics satisfy `0 ≤ min ≤ mean ≤ max ≤ 123456789`,
`wins ≤ num_games`, and the histogram bucket counts sum to exactly
`num_games` — the recording of every attainable score succeeds, no score
can produce an out-of-range bucket index, so the "at most, with equality
exactly when no out-of-range index occurred" of the claim holds with both
sides always true. -/
theorem stb_C7_driver_invariants :
    ∀ scores : List ℕ, scores ≠ [] →
      (∀ sc ∈ scores, ∃ D, D ⊆ Finset.Icc 1 9 ∧ sc = calc_score D) →
      ∃ st, runGames scores = some st ∧
        0 ≤ st.mins ∧
        (st.mins : ℚ) ≤ (st.tot : ℚ) / (scores.length : ℚ) ∧
        (st.tot : ℚ) / (scores.length : ℚ) ≤ (st.maxs : ℚ) ∧
        st.maxs ≤ 123456789 ∧
        st.wins ≤ scores.length ∧
        st.hist.sum = scores.length := by
  intro scores hne hsc
  have hb : ∀ sc ∈ scores, sc ≤ 123456789 := by
    intro sc hmem
    obtain ⟨D, hD, rfl⟩ := hsc sc hmem
    exact calc_score_le hD
  obtain ⟨st, hrun, hlen, hsum, hwins, htot, hmins, hmaxsa, hmaxsb, hall⟩ :=
    runAux_spec scores initStats hb (by simp [initStats])
  have hn : 0 < scores.length := List.length_pos.mpr hne
  have hnq : (0 : ℚ) < (scores.length : ℚ) := by exact_mod_cast hn
  have htot2 : st.tot = scores.sum := by
    rw [htot]
    simp [initStats]
  refine ⟨st, hrun, Nat.zero_le _, ?_, ?_, ?_, ?_, ?_⟩
  · rw [le_div_iff₀ hnq]
    have h1 : scores.length • st.mins ≤ scores.sum :=
      List.card_nsmul_le_sum scores st.mins (fun x hx => (hall x hx).1)
    rw [smul_eq_mul] at h1
    have h2 : st.mins * scores.length ≤ st.tot := by
      rw [htot2, mul_comm]
      exact h1
    exact_mod_cast h2
  · rw [div_le_iff₀ hnq]
    have h1 : scores.sum ≤ scores.length • st.maxs :=
      List.sum_le_card_nsmul scores st.maxs (fun x hx => (hall x hx).2)
    rw [smul_eq_mul] at h1
    have h2 : st.tot ≤ st.maxs * scores.length := by
      rw [htot2, mul_comm]
      exact h1
    exact_mod_cast h2
  · simpa [initStats] using hmaxsb
  · simpa [initStats] using hwins
  · simpa [initStats] using hsum

/-- Witness for C7 at a concrete input: one game that emptied the board
(score 0, the score of the empty sub-board). -/
theorem stb_C7_driver_invariants_witness :
    ∃ st, runGames [0] = some st ∧
      0 ≤ st.mins ∧
      (st.mins : ℚ) ≤ (st.tot : ℚ) / ((([0] : List ℕ).length : ℕ) : ℚ) ∧
      (st.tot : ℚ) / ((([0] : List ℕ).length : ℕ) : ℚ) ≤ (st.maxs : ℚ) ∧
      st.maxs ≤ 123456789 ∧
      st.wins ≤ ([0] : List ℕ).length ∧
      st.hist.sum = ([0] : List ℕ).length :=
  stb_C7_driver_invariants [0] (List.cons_ne_nil _ _)
    (fun sc hmem => by
      have hsc : sc = 0 := by simpa using hmem
      exact ⟨∅, Finset.empty_subset _, by rw [hsc]; rfl⟩)
